import Mathlib

/-!
Shallow embedding of the analysis-and-graph-maintenance core of `app.py`
(structural parser, call resolver, graph builder, shared store, incremental
merge).  Python's `ast` objects are modelled by the mutual inductive
`PyNode`/`PyNodes`; a file on disk is modelled by `PyFileData`, carrying the
file's text and the outcome of `ast.parse` (`none` models a
`UnicodeDecodeError` / `TypeError` / `SyntaxError` raised while reading or
parsing).  `ast.get_source_segment` is modelled by the `segment` attribute
carried on each node.  The breadth-first `ast.walk` and the recursive
`os.walk` are given fuelled definitions (with provably sufficient fuel) so
that every definition is computable and reduces inside the kernel; the
adequacy lemmas `walkAux_cons` and `walkFiles_mk` show the fuel never runs
out, i.e. the fuelled definitions satisfy the intended recurrences.
-/

namespace PCV

/-! ## Python AST model -/

mutual
/-- Model of the relevant fragment of Python's `ast` node hierarchy.
`funcDef`/`classDef` carry the name, `lineno`, source segment and child
nodes; `ret` models `ast.Return` (`value : Bool` says whether the return
statement has a value expression, and `segment` is its own source text);
`call` models `ast.Call` carrying the called name (`some n` when
`node.func` has an `id` attribute — a direct call — or an `attr`
attribute — a method call; Python identifiers are never empty, so a
present name is always truthy); `other` covers every other
statement/expression node. -/
inductive PyNode where
  | funcDef (name : String) (lineno : Nat) (segment : Option String) (children : PyNodes)
  | classDef (name : String) (lineno : Nat) (segment : Option String) (children : PyNodes)
  | ret (value : Bool) (segment : Option String) (children : PyNodes)
  | call (callName : Option String) (lineno : Nat) (children : PyNodes)
  | other (children : PyNodes)
/-- A list of AST nodes (explicit spine, so that size functions and
traversals are structurally recursive and kernel-reducible). -/
inductive PyNodes where
  | nil
  | cons (head : PyNode) (tail : PyNodes)
end

/-- The children of a node, in `ast.iter_child_nodes` order. -/
def PyNode.children : PyNode → PyNodes
  | .funcDef _ _ _ c => c
  | .classDef _ _ _ c => c
  | .ret _ _ c => c
  | .call _ _ c => c
  | .other c => c

/-- Convert the explicit spine to an ordinary list. -/
def PyNodes.toList : PyNodes → List PyNode
  | .nil => []
  | .cons h t => h :: t.toList

/-- Total number of AST nodes in a forest (counting every node of every
tree). -/
def PyNodes.size : PyNodes → Nat
  | .nil => 0
  | .cons (.funcDef _ _ _ c) t => c.size + t.size + 1
  | .cons (.classDef _ _ _ c) t => c.size + t.size + 1
  | .cons (.ret _ _ c) t => c.size + t.size + 1
  | .cons (.call _ _ c) t => c.size + t.size + 1
  | .cons (.other c) t => c.size + t.size + 1

/-- Total number of AST nodes in a queue of roots. -/
def countN (l : List PyNode) : Nat :=
  l.foldr (fun n acc => n.children.size + 1 + acc) 0

/-- Fuelled breadth-first traversal over a queue of nodes — the order of
`ast.walk`.  One unit of fuel is consumed per visited node. -/
def walkAuxF : Nat → List PyNode → List PyNode
  | _, [] => []
  | 0, _ :: _ => []
  | fuel + 1, n :: q => n :: walkAuxF fuel (q ++ n.children.toList)

/-- Breadth-first traversal of a queue of roots, with exactly enough fuel
(`countN`) to visit every node (see `walkAux_cons`). -/
def walkAux (l : List PyNode) : List PyNode := walkAuxF (countN l) l

/-- Model of `ast.walk(node)`. -/
def PyNode.walk (n : PyNode) : List PyNode := walkAux [n]

theorem countN_nil : countN [] = 0 := rfl

theorem countN_cons (n : PyNode) (t : List PyNode) :
    countN (n :: t) = n.children.size + 1 + countN t := rfl

theorem countN_append (a b : List PyNode) :
    countN (a ++ b) = countN a + countN b := by
  induction a with
  | nil => simp [countN]
  | cons n t ih => rw [List.cons_append, countN_cons, countN_cons, ih]; omega

theorem size_eq_countN_toList : ∀ s : PyNodes, s.size = countN s.toList
  | .nil => rfl
  | .cons (.funcDef nm ln sg c) t => by
      have ih := size_eq_countN_toList t
      simp [PyNodes.size, PyNodes.toList, countN_cons, PyNode.children, ih]
      omega
  | .cons (.classDef nm ln sg c) t => by
      have ih := size_eq_countN_toList t
      simp [PyNodes.size, PyNodes.toList, countN_cons, PyNode.children, ih]
      omega
  | .cons (.ret v sg c) t => by
      have ih := size_eq_countN_toList t
      simp [PyNodes.size, PyNodes.toList, countN_cons, PyNode.children, ih]
      omega
  | .cons (.call cn ln c) t => by
      have ih := size_eq_countN_toList t
      simp [PyNodes.size, PyNodes.toList, countN_cons, PyNode.children, ih]
      omega
  | .cons (.other c) t => by
      have ih := size_eq_countN_toList t
      simp [PyNodes.size, PyNodes.toList, countN_cons, PyNode.children, ih]
      omega

theorem walkAuxF_congr :
    ∀ (f₁ f₂ : Nat) (l : List PyNode), countN l ≤ f₁ → countN l ≤ f₂ →
      walkAuxF f₁ l = walkAuxF f₂ l := by
  intro f₁
  induction f₁ with
  | zero =>
      intro f₂ l h₁ _
      cases l with
      | nil => cases f₂ <;> rfl
      | cons n q => rw [countN_cons] at h₁; omega
  | succ f₁ ih =>
      intro f₂ l h₁ h₂
      cases l with
      | nil => cases f₂ <;> rfl
      | cons n q =>
          cases f₂ with
          | zero => rw [countN_cons] at h₂; omega
          | succ f₂ =>
              simp only [walkAuxF]
              rw [countN_cons] at h₁ h₂
              have hq : countN (q ++ n.children.toList)
                  = countN q + n.children.size := by
                rw [countN_append, size_eq_countN_toList]
              rw [ih f₂ (q ++ n.children.toList) (by omega) (by omega)]

/-- Adequacy of the fuelled breadth-first walk: it satisfies the defining
recurrence of `ast.walk` (visit the head, enqueue its children). -/
theorem walkAux_cons (n : PyNode) (q : List PyNode) :
    walkAux (n :: q) = n :: walkAux (q ++ n.children.toList) := by
  unfold walkAux
  rw [countN_cons]
  have hsum : countN (q ++ n.children.toList) = countN q + n.children.size := by
    rw [countN_append, size_eq_countN_toList]
  have hstep : n.children.size + 1 + countN q
      = (n.children.size + countN q) + 1 := by omega
  rw [hstep]
  simp only [walkAuxF]
  refine congrArg _ (walkAuxF_congr _ _ _ (by omega) (le_refl _))

theorem walkAux_nil : walkAux ([] : List PyNode) = [] := rfl

/-! ## Structural parser (`parse_python_file`, app.py lines 583-622) -/

/-- A function record as returned by `parse_python_file`: the dict
`{"name": …, "code": ast.get_source_segment(...), "returns": […],
"file": os.path.basename(file_path)}`. -/
structure PyFunc where
  name : String
  code : Option String
  returns : List String
  file : String
deriving DecidableEq

/-- A class record as returned by `parse_python_file`: the dict
`{"name": …, "code": …, "file": …}`. -/
structure PyClass where
  name : String
  code : Option String
  file : String
deriving DecidableEq

/-- A file on disk: its text and the result of `ast.parse` on that text
(`none` models a `UnicodeDecodeError`/`TypeError`/`SyntaxError`; `some
body` is the list of top-level statements of the parsed module). -/
structure PyFileData where
  parsed : Option (List PyNode)
  content : String

/-- Model of `str.endswith`: suffix test on the character sequence. -/
def strEndsWith (s pat : String) : Bool := pat.data.isSuffixOf s.data

/-- Model of `str.strip()`: drop leading and trailing whitespace. -/
def pyStrip (s : String) : String :=
  ⟨((s.data.dropWhile Char.isWhitespace).reverse.dropWhile
      Char.isWhitespace).reverse⟩

/-- Model of `os.path.basename`: the final path component (the characters after the
last `/`). -/
def basename (p : String) : String :=
  ⟨p.data.foldl (fun acc c => if c = '/' then [] else acc ++ [c]) []⟩

/-- The contribution of one walked node to a function's `returns` list:
`ast.Return` nodes only; a valued return contributes its stripped source
segment when the segment is truthy (non-`None`, non-empty), and a bare
return contributes the string `"None"` (the code appends the literal
`"None"`, not a `"<none>"` sentinel). -/
def returnEntry : PyNode → Option String
  | .ret true sg _ =>
      match sg with
      | some s => if s = "" then none else some (pyStrip s)
      | none => none
  | .ret false _ _ => some "None"
  | _ => none

/-- The loop body `returns.append(...)`: append the entry `f x` yields, if
any. -/
def appendOpt {α β : Type} (f : α → Option β) (acc : List β) (x : α) : List β :=
  match f x with
  | some e => acc ++ [e]
  | none => acc

/-- The `returns` list collected for one `ast.FunctionDef` node: walk the
function's subtree breadth-first and append one entry per `ast.Return`
encountered. -/
def collectReturns (n : PyNode) : List String :=
  n.walk.foldl (appendOpt returnEntry) []

/-- Embedding of `parse_python_file(file_path)`: on a decode/parse failure return
`([], [], "")`; otherwise walk the module breadth-first, collecting one
record per `ast.FunctionDef` (with its source segment and `returns`) and
one per `ast.ClassDef`, and return them with the file's content. -/
def parse_python_file (path : String) (fd : PyFileData) :
    List PyFunc × List PyClass × String :=
  match fd.parsed with
  | none => ([], [], "")
  | some body =>
      let w := walkAux body
      let functions := w.filterMap (fun n =>
        match n with
        | PyNode.funcDef nm ln sg c =>
            some { name := nm, code := sg,
                   returns := collectReturns (PyNode.funcDef nm ln sg c),
                   file := basename path }
        | _ => none)
      let classes := w.filterMap (fun n =>
        match n with
        | PyNode.classDef nm _ sg _ =>
            some ({ name := nm, code := sg, file := basename path } : PyClass)
        | _ => none)
      (functions, classes, fd.content)

/-! ## Graph data model -/

/-- A graph node dict.  `returns`, `called_by` and `file` are optional
because the corresponding keys are only present on some node kinds (`file`
nodes carry neither; `class` nodes carry only `file`).  `code` is the value
of the always-present `"code"` key, which for function/class nodes is
`ast.get_source_segment`'s result and may be Python `None`. -/
structure GraphNode where
  id : String
  name : String
  type : String
  code : Option String
  returns : Option (List String) := none
  called_by : Option (List String) := none
  file : Option String := none
  file_path : String
deriving DecidableEq

/-- A directed containment edge `{"source": …, "target": …}`. -/
structure GraphEdge where
  source : String
  target : String
deriving DecidableEq

/-- The graph value returned by `analyze_directory`. -/
structure Graph where
  nodes : List GraphNode
  edges : List GraphEdge
deriving DecidableEq

/-- The shared `directory_data` dict.  At process start it is `{}` — neither
a `"nodes"` nor an `"edges"` key is present — which the two optional fields
model. -/
structure Store where
  nodes : Option (List GraphNode)
  edges : Option (List GraphEdge)
deriving DecidableEq

/-! ## File discoverer (app.py lines 632-649) -/

/-- The pruned noise-directory names. -/
def skipDirs : List String :=
  [".git", ".venv", "venv", "__pycache__", ".mypy_cache", ".pytest_cache",
   "node_modules"]

mutual
/-- A directory: its plain files (name ↦ data, in `os.walk` listing order)
and its subdirectories. -/
inductive DirTree where
  | mk (files : List (String × PyFileData)) (dirs : DirEntries)
/-- Named subdirectory entries, in listing order. -/
inductive DirEntries where
  | nil
  | cons (name : String) (tree : DirTree) (rest : DirEntries)
end

/-- Height of a subdirectory forest (fuel bound for the recursive walk). -/
def DirEntries.height : DirEntries → Nat
  | .nil => 0
  | .cons _ (.mk _ ds) rest => max (ds.height + 1) rest.height

/-- Height of a directory tree. -/
def DirTree.height : DirTree → Nat
  | .mk _ ds => ds.height + 1

/-- One level of `os.walk`'s descent: visit each subdirectory in order,
skipping the pruned names (`dirnames[:] = [d for d in dirnames if d not in
skip_dirs]` removes them before recursion, so a skipped directory
contributes nothing). -/
def walkDirsWith (rec : String → DirTree → List (String × PyFileData)) :
    String → DirEntries → List (String × PyFileData)
  | _, .nil => []
  | pre, .cons nm t rest =>
      (if skipDirs.contains nm then [] else rec (pre ++ nm ++ "/") t)
      ++ walkDirsWith rec pre rest

/-- Fuelled `os.walk` file collection: at each directory, gather the
`.py` files of the current level (in listing order), then recurse depth
first into the non-pruned subdirectories.  Paths are root-relative with
forward slashes, matching `os.path.relpath(...).replace('\\', '/')` applied
to `os.path.join(root, fn)`. -/
def walkFilesD : Nat → String → DirTree → List (String × PyFileData)
  | 0, _, _ => []
  | d + 1, pre, .mk fs ds =>
      (fs.filter (fun f => strEndsWith f.1 ".py")).map (fun f => (pre ++ f.1, f.2))
      ++ walkDirsWith (walkFilesD d) pre ds

/-- The `os.walk`-order collection of the `.py` files under a root, with
provably sufficient fuel (see `walkFiles_mk`). -/
def walkFiles (pre : String) (t : DirTree) : List (String × PyFileData) :=
  walkFilesD t.height pre t

theorem walkDirsWith_congr (r₁ r₂ : String → DirTree → List (String × PyFileData)) :
    ∀ (pre : String) (ds : DirEntries),
      (∀ p t, t.height ≤ ds.height → r₁ p t = r₂ p t) →
      walkDirsWith r₁ pre ds = walkDirsWith r₂ pre ds
  | _, .nil, _ => rfl
  | pre, .cons nm (.mk fs' ds') rest, h => by
      simp only [walkDirsWith]
      rw [walkDirsWith_congr r₁ r₂ pre rest
            (fun p t ht => h p t (le_trans ht (by simp [DirEntries.height])))]
      congr 1
      split
      · rfl
      · exact h _ _ (by simp [DirEntries.height, DirTree.height])

theorem walkFilesD_congr :
    ∀ (d₁ d₂ : Nat) (pre : String) (t : DirTree),
      t.height ≤ d₁ → t.height ≤ d₂ → walkFilesD d₁ pre t = walkFilesD d₂ pre t := by
  intro d₁
  induction d₁ with
  | zero =>
      intro d₂ pre t h₁ _
      cases t with
      | mk fs ds => simp [DirTree.height] at h₁
  | succ d₁ ih =>
      intro d₂ pre t h₁ h₂
      cases t with
      | mk fs ds =>
          cases d₂ with
          | zero => simp [DirTree.height] at h₂
          | succ d₂ =>
              simp only [walkFilesD]
              congr 1
              apply walkDirsWith_congr
              intro p t' ht'
              have hd₁ : ds.height ≤ d₁ := by
                simp [DirTree.height] at h₁; omega
              have hd₂ : ds.height ≤ d₂ := by
                simp [DirTree.height] at h₂; omega
              exact ih d₂ p t' (le_trans ht' hd₁) (le_trans ht' hd₂)

/-- Adequacy of the fuelled directory walk: it satisfies the intended
recurrence (current level's `.py` files first, then the non-pruned
subdirectories depth-first). -/
theorem walkFiles_mk (pre : String) (fs : List (String × PyFileData))
    (ds : DirEntries) :
    walkFiles pre (.mk fs ds)
      = (fs.filter (fun f => strEndsWith f.1 ".py")).map (fun f => (pre ++ f.1, f.2))
        ++ walkDirsWith walkFiles pre ds := by
  unfold walkFiles
  have h : (DirTree.mk fs ds).height = ds.height + 1 := rfl
  rw [h]
  simp only [walkFilesD]
  congr 1
  apply walkDirsWith_congr
  intro p t ht
  exact walkFilesD_congr _ _ _ _ (le_trans (le_refl _) ht) (le_refl _)

/-- The 50-file performance cap (app.py lines 643-646). -/
def capFiles (files : List (String × PyFileData)) : List (String × PyFileData) :=
  if files.length > 50 then files.take 50 else files

/-! ## Call resolver and graph builder (app.py lines 624-762) -/

/-- An entry of the `all_functions` dict: the parsed function record with
its `file` key overwritten to the root-relative name and a `called_by`
list. -/
structure FuncRec where
  name : String
  code : Option String
  returns : List String
  file : String
  called_by : List String
deriving DecidableEq

/-- Python-dict assignment `d[k] = v` on an insertion-ordered association
list: overwrite in place if the key exists, else append. -/
def dictSet {κ α : Type} [DecidableEq κ] (k : κ) (v : α) :
    List (κ × α) → List (κ × α)
  | [] => [(k, v)]
  | (k', v') :: t => if k' = k then (k, v) :: t else (k', v') :: dictSet k v t

/-- Python-dict lookup `d.get(k)`. -/
def dictGet {κ α : Type} [DecidableEq κ] (k : κ) :
    List (κ × α) → Option α
  | [] => none
  | (k', v) :: t => if k' = k then some v else dictGet k t

/-- The `func_line_map` of one file: walk the tree and record
`lineno ↦ name` for every `ast.FunctionDef` (dict semantics; iteration
order is insertion order). -/
def buildFuncLineMap (body : List PyNode) : List (Nat × String) :=
  (walkAux body).foldl
    (fun flm n => match n with
      | PyNode.funcDef nm ln _ _ => dictSet ln nm flm
      | _ => flm) []

/-- The call expressions of one file, in walk order: `(name, lineno)` for
every `ast.Call` whose callee exposes an `id` or `attr` name. -/
def callsOf (body : List PyNode) : List (String × Nat) :=
  (walkAux body).filterMap (fun n =>
    match n with
    | PyNode.call (some nm) ln _ => some (nm, ln)
    | _ => none)

/-- One iteration of the enclosing-function scan (app.py lines 708-711):
`if func_line <= call_line and func_line > best_match_line`. -/
def feStep (callLine : Nat) (acc : Option String × Nat) (p : Nat × String) :
    Option String × Nat :=
  if p.1 ≤ callLine ∧ acc.2 < p.1 then (some p.2, p.1) else acc

/-- The enclosing-function heuristic (app.py lines 706-711): scan
`func_line_map` keeping the entry with the greatest start line that is
`≤ call_line` (and `> 0`, the initial `best_match_line`). -/
def findEnclosing (flm : List (Nat × String)) (callLine : Nat) : Option String :=
  (flm.foldl (feStep callLine) ((none : Option String), 0)).1

/-- Append `caller` to a record's `called_by` unless already present
(`if caller_id not in …: append`). -/
def updateCalledBy (caller : String) (d : FuncRec) : FuncRec :=
  if caller ∈ d.called_by then d
  else { d with called_by := d.called_by ++ [caller] }

/-- Process one call expression against the whole `all_functions` dict
(app.py lines 698-717): every record whose `name` equals the called name
gets the enclosing function's id appended to its `called_by` (if an
enclosing function exists, is itself a known record, and is not already
listed).  Keys are never inserted or removed. -/
def processCall (relName : String) (flm : List (Nat × String))
    (callName : String) (callLine : Nat)
    (af : List (String × FuncRec)) : List (String × FuncRec) :=
  af.map (fun e =>
    if e.2.name = callName then
      match findEnclosing flm callLine with
      | some cf =>
          let caller := relName ++ "::" ++ cf
          if caller ∈ af.map Prod.fst then (e.1, updateCalledBy caller e.2)
          else e
      | none => e
    else e)

/-- First pass over one file (app.py lines 652-671): parse, skip if the
content is empty, else register `rel_name::name ↦ record` for every
function, with `file := rel_name` and `called_by := []`. -/
def passOneFile (dir : String) (af : List (String × FuncRec))
    (rel : String) (fd : PyFileData) : List (String × FuncRec) :=
  let r := parse_python_file (dir ++ "/" ++ rel) fd
  if r.2.2 = "" then af
  else r.1.foldl
    (fun af f =>
      dictSet (rel ++ "::" ++ f.name)
        ({ name := f.name, code := f.code, returns := f.returns,
           file := rel, called_by := [] } : FuncRec) af) af

/-- First pass over the capped file list. -/
def passOne (dir : String) (files : List (String × PyFileData)) :
    List (String × FuncRec) :=
  files.foldl (fun af rf => passOneFile dir af rf.1 rf.2) []

/-- Second pass over one file (app.py lines 675-720): re-read and re-parse
it (a failure is caught and the file skipped), build its `func_line_map`,
and process every call expression in walk order. -/
def passTwoFile (af : List (String × FuncRec)) (rel : String)
    (fd : PyFileData) : List (String × FuncRec) :=
  match fd.parsed with
  | none => af
  | some body =>
      let flm := buildFuncLineMap body
      (callsOf body).foldl (fun af c => processCall rel flm c.1 c.2 af) af

/-- Second pass over the capped file list. -/
def passTwo (files : List (String × PyFileData))
    (af : List (String × FuncRec)) : List (String × FuncRec) :=
  files.foldl (fun af rf => passTwoFile af rf.1 rf.2) af

/-- The file node of the build pass (app.py line 733). -/
def fileNodeOf (dir rel : String) (fd : PyFileData) : GraphNode :=
  { id := rel, name := rel, type := "file",
    code := some (parse_python_file (dir ++ "/" ++ rel) fd).2.2,
    file_path := dir ++ "/" ++ rel }

/-- A function node of the build pass (app.py lines 736-747):
`returns`/`called_by` come from `all_functions.get(func_id, func)` — the
resolver's record when present, else the freshly parsed record, which
carries no `called_by`. -/
def funcNodeOf (dir : String) (af : List (String × FuncRec)) (rel : String)
    (f : PyFunc) : GraphNode :=
  { id := rel ++ "::" ++ f.name, name := f.name, type := "function",
    code := f.code,
    returns := some (match dictGet (rel ++ "::" ++ f.name) af with
      | some d => d.returns
      | none => f.returns),
    called_by := some (match dictGet (rel ++ "::" ++ f.name) af with
      | some d => d.called_by
      | none => []),
    file := some rel, file_path := dir ++ "/" ++ rel }

/-- A class node of the build pass (app.py lines 751-759). -/
def classNodeOf (dir rel : String) (c : PyClass) : GraphNode :=
  { id := rel ++ "::" ++ c.name, name := c.name, type := "class",
    code := c.code, file := some rel, file_path := dir ++ "/" ++ rel }

/-- A containment edge of the build pass. -/
def memberEdgeOf (rel memberName : String) : GraphEdge :=
  { source := rel, target := rel ++ "::" ++ memberName }

/-- Node/edge chunk contributed by one file in the build pass (app.py
lines 724-760): nothing if the file re-parses empty; otherwise the file
node followed by one node and one containment edge per function and per
class, in that order. -/
def buildFile (dir : String) (af : List (String × FuncRec))
    (rel : String) (fd : PyFileData) : List GraphNode × List GraphEdge :=
  let r := parse_python_file (dir ++ "/" ++ rel) fd
  if r.2.2 = "" then ([], [])
  else
    (fileNodeOf dir rel fd
       :: (r.1.map (funcNodeOf dir af rel) ++ r.2.1.map (classNodeOf dir rel)),
     r.1.map (fun f => memberEdgeOf rel f.name)
       ++ r.2.1.map (fun c => memberEdgeOf rel c.name))

/-- Assemble the graph: concatenate each file's chunk in file order. -/
def buildGraph (dir : String) (af : List (String × FuncRec))
    (files : List (String × PyFileData)) : Graph :=
  files.foldl
    (fun g rf =>
      let c := buildFile dir af rf.1 rf.2
      { nodes := g.nodes ++ c.1, edges := g.edges ++ c.2 })
    { nodes := [], edges := [] }

/-- The full build on an already-discovered (capped) file list. -/
def analyzeFiles (dir : String) (files : List (String × PyFileData)) : Graph :=
  buildGraph dir (passTwo files (passOne dir files)) files

/-- Embedding of `analyze_directory(directory)`.  Here `none` models a root whose listing
fails (the `except` branch of lines 647-649 returns
`{"nodes": [], "edges": []}`; note that `os.walk` on a missing path yields
no entries at all, so that route also produces the empty graph). -/
def analyze_directory (dir : String) (root : Option DirTree) : Graph :=
  match root with
  | none => { nodes := [], edges := [] }
  | some t => analyzeFiles dir (capFiles (walkFiles "" t))

/-! ## Shared store and incremental merge (app.py lines 27-28, 78-148,
199-209) -/

/-- Initial state `directory_data = {}` at process start: no `"nodes"`/`"edges"` keys. -/
def initial_directory_data : Store := { nodes := none, edges := none }

/-- Embedding of `get_directory_data_snapshot`: under the lock, deep-copy the store via
a JSON round trip.  On the store's reachable values (dicts of strings,
lists and nulls) the round trip is the identity; the `except` fallback
`{"nodes": [], "edges": []}` is unreachable for such values. -/
def get_directory_data_snapshot (s : Store) : Store := s

/-- Embedding of `set_directory_data`: wholesale replacement by a full build's result. -/
def set_directory_data (g : Graph) : Store :=
  { nodes := some g.nodes, edges := some g.edges }

/-- The fresh function node/edge pairs appended by `reanalyze_file`
(app.py lines 112-124): ids are keyed by the file's **basename**, the
`returns` come from the fresh parse, and `called_by` is reset to `[]`. -/
def freshFuncParts (filename path : String) (functions : List PyFunc) :
    List (GraphNode × GraphEdge) :=
  functions.map (fun f =>
    let func_id := filename ++ "::" ++ f.name
    (({ id := func_id, name := f.name, type := "function", code := f.code,
        returns := some f.returns, called_by := some [],
        file := some filename, file_path := path } : GraphNode),
     ({ source := filename, target := func_id } : GraphEdge)))

/-- The fresh class node/edge pairs appended by `reanalyze_file`
(app.py lines 126-136). -/
def freshClassParts (filename path : String) (classes : List PyClass) :
    List (GraphNode × GraphEdge) :=
  classes.map (fun c =>
    let cls_id := filename ++ "::" ++ c.name
    (({ id := cls_id, name := c.name, type := "class", code := c.code,
        file := some filename, file_path := path } : GraphNode),
     ({ source := filename, target := cls_id } : GraphEdge)))

/-- Embedding of `reanalyze_file(file_path)` (app.py lines 78-148): parse the file;
if the content is empty (unparseable, or genuinely empty) return without
touching the store.  Otherwise, under the lock: default both keys to `[]`
if either is missing, drop every node whose `file` attribute or id equals
the file's **basename** and every edge whose source equals it, then append
the fresh file node, member nodes and containment edges. -/
def reanalyze_file (path : String) (fd : PyFileData) (s : Store) : Store :=
  let filename := basename path
  let r := parse_python_file path fd
  if r.2.2 = "" then s
  else
    let kept :=
      match s.nodes, s.edges with
      | some ns, some es => (ns, es)
      | _, _ => ([], [])
    let ns := kept.1.filter
      (fun n => decide (¬ (n.file = some filename ∨ n.id = filename)))
    let es := kept.2.filter (fun e => decide (e.source ≠ filename))
    let fileNode : GraphNode :=
      { id := filename, name := filename, type := "file", code := some r.2.2,
        file_path := path }
    let fparts := freshFuncParts filename path r.1
    let cparts := freshClassParts filename path r.2.1
    { nodes := some (ns ++ fileNode :: (fparts.map Prod.fst ++ cparts.map Prod.fst)),
      edges := some (es ++ (fparts.map Prod.snd ++ cparts.map Prod.snd)) }

end PCV

namespace PCV

/-! ## Generic helper lemmas -/

theorem strAppend_cancel_right (a b c : String) (h : a ++ c = b ++ c) : a = b := by
  have h' : a.data ++ c.data = b.data ++ c.data := by
    have h2 := congrArg String.data h
    simpa using h2
  exact String.ext (List.append_cancel_right h')

theorem foldl_opt_append {α β : Type} (f : α → Option β) :
    ∀ (l : List α) (init : List β),
      l.foldl (appendOpt f) init = init ++ l.filterMap f := by
  intro l
  induction l with
  | nil => intro init; simp
  | cons x t ih =>
      intro init
      rw [List.foldl_cons, ih, List.filterMap_cons]
      unfold appendOpt
      cases f x <;> simp

theorem foldl_invariant {α β : Type} (P : β → Prop) (f : β → α → β)
    (h : ∀ b a, P b → P (f b a)) :
    ∀ (l : List α) (init : β), P init → P (l.foldl f init) := by
  intro l
  induction l with
  | nil => intro init hi; exact hi
  | cons x t ih => intro init hi; exact ih (f init x) (h init x hi)

theorem foldl_drop_noop {α β : Type} (f : β → α → β) (x : α)
    (hx : ∀ b, f b x = b) (l₁ l₂ : List α) (init : β) :
    (l₁ ++ x :: l₂).foldl f init = (l₁ ++ l₂).foldl f init := by
  rw [List.foldl_append, List.foldl_append, List.foldl_cons, hx]

theorem mem_dictSet {κ α : Type} [DecidableEq κ] (k : κ) (v : α) :
    ∀ (l : List (κ × α)) (x : κ × α), x ∈ dictSet k v l → x ∈ l ∨ x = (k, v) := by
  intro l
  induction l with
  | nil => intro x hx; simp [dictSet] at hx; right; exact hx
  | cons e t ih =>
      intro x hx
      by_cases hk : e.1 = k
      · simp [dictSet, hk] at hx
        rcases hx with h | h
        · right; simp [h]
        · left; simp [h]
      · rcases e with ⟨k', v'⟩
        simp only [dictSet, if_neg hk] at hx
        rcases List.mem_cons.mp hx with h | h
        · left; simp [h]
        · rcases ih x h with h' | h'
          · left; exact List.mem_cons_of_mem _ h'
          · right; exact h'

theorem dictGet_mem {κ α : Type} [DecidableEq κ] (k : κ) :
    ∀ (l : List (κ × α)) (d : α), dictGet k l = some d → (k, d) ∈ l := by
  intro l
  induction l with
  | nil => intro d hd; simp [dictGet] at hd
  | cons e t ih =>
      intro d hd
      rcases e with ⟨k', v'⟩
      by_cases hk : k' = k
      · simp [dictGet, hk] at hd
        subst hk hd
        exact List.mem_cons_self _ _
      · simp only [dictGet, if_neg hk] at hd
        exact List.mem_cons_of_mem _ (ih d hd)

theorem nodupKeys_val_eq {κ α : Type} :
    ∀ (l : List (κ × α)), (l.map Prod.fst).Nodup →
      ∀ (k : κ) (a b : α), (k, a) ∈ l → (k, b) ∈ l → a = b := by
  intro l
  induction l with
  | nil => intro _ k a b ha; simp at ha
  | cons e t ih =>
      intro hnd k a b ha hb
      simp only [List.map_cons, List.nodup_cons] at hnd
      rcases List.mem_cons.mp ha with h1 | h1 <;>
        rcases List.mem_cons.mp hb with h2 | h2
      · exact congrArg Prod.snd (h1.trans h2.symm)
      · exfalso
        apply hnd.1
        rw [(congrArg Prod.fst h1).symm]
        exact List.mem_map.mpr ⟨(k, b), h2, rfl⟩
      · exfalso
        apply hnd.1
        rw [(congrArg Prod.fst h2).symm]
        exact List.mem_map.mpr ⟨(k, a), h1, rfl⟩
      · exact ih hnd.2 k a b h1 h2

end PCV

namespace PCV

/-! ## Sample inputs used by witnesses and counterexamples -/

/-- A file holding `def h():\n    return` — one function with one bare `return`. -/
def sampleBareReturnFile : PyFileData :=
  { parsed := some
      [PyNode.funcDef "h" 1 (some "def h():\n    return")
         (PyNodes.cons (PyNode.ret false none PyNodes.nil) PyNodes.nil)],
    content := "def h():\n    return\n" }

/-- A parseable file defining `f` (with `return 1`). -/
def sampleGoodFile : PyFileData :=
  { parsed := some
      [PyNode.funcDef "f" 1 (some "def f():\n    return 1")
         (PyNodes.cons (PyNode.ret true (some "return 1") PyNodes.nil)
            PyNodes.nil)],
    content := "def f():\n    return 1\n" }

/-- A file whose bytes fail to decode or parse. -/
def sampleBadFile : PyFileData := { parsed := none, content := "" }

/-- A zero-byte file: parses to an empty module. -/
def sampleEmptyFile : PyFileData := { parsed := some [], content := "" }

/-- A directory holding a parseable `a.py` and an unparseable `b.py`. -/
def sampleMixedTree : DirTree :=
  DirTree.mk [("a.py", sampleGoodFile), ("b.py", sampleBadFile)] DirEntries.nil

/-! ## Shared no-op lemma for skipped files -/

/-- A file whose parse yields empty content (unparseable, or genuinely
empty with an empty parsed module) contributes nothing to a full build:
dropping it from the analyzed file list leaves the result unchanged. -/
theorem analyzeFiles_drop (dir rel : String) (fd : PyFileData)
    (hC : fd.content = "" ∨ fd.parsed = none)
    (hP : fd.parsed = none ∨ fd.parsed = some [])
    (fs₁ fs₂ : List (String × PyFileData)) :
    analyzeFiles dir (fs₁ ++ (rel, fd) :: fs₂)
      = analyzeFiles dir (fs₁ ++ fs₂) := by
  have hpc : ∀ p : String, (parse_python_file p fd).2.2 = "" := by
    intro p
    rcases hP with h | h
    · simp [parse_python_file, h]
    · rcases hC with hc | hc
      · simp [parse_python_file, h, hc]
      · simp [h] at hc
  have hb : ∀ af, passOneFile dir af rel fd = af := by
    intro af
    simp [passOneFile, hpc]
  have hc2 : ∀ af, passTwoFile af rel fd = af := by
    intro af
    rcases hP with h | h
    · simp [passTwoFile, h]
    · simp [passTwoFile, h, callsOf, walkAux, countN, walkAuxF]
  have hg : ∀ af, buildFile dir af rel fd = ([], []) := by
    intro af
    simp [buildFile, hpc]
  have h1 : passOne dir (fs₁ ++ (rel, fd) :: fs₂) = passOne dir (fs₁ ++ fs₂) := by
    unfold passOne
    exact foldl_drop_noop _ (rel, fd) (fun af => hb af) fs₁ fs₂ []
  have h2 : ∀ af, passTwo (fs₁ ++ (rel, fd) :: fs₂) af = passTwo (fs₁ ++ fs₂) af := by
    intro af
    unfold passTwo
    exact foldl_drop_noop _ (rel, fd) (fun b => hc2 b) fs₁ fs₂ af
  have h3 : ∀ af, buildGraph dir af (fs₁ ++ (rel, fd) :: fs₂)
      = buildGraph dir af (fs₁ ++ fs₂) := by
    intro af
    unfold buildGraph
    exact foldl_drop_noop _ (rel, fd) (fun g => by simp [hg]) fs₁ fs₂ _
  unfold analyzeFiles
  rw [h1, h2, h3]

/-! ## Claim theorems -/

/-- C7: `analyze_directory` never raises for any root path; for a missing
or unreadable root directory it returns the empty graph
`{"nodes": [], "edges": []}` (the embedding is a total function, so the
checkable content is the empty-graph return on the failing-listing root;
`os.walk` on a missing path yields no entries, which produces the same
empty graph through the normal path). -/
theorem analyze_directory_missing_root (dir : String) :
    analyze_directory dir none = { nodes := [], edges := [] } := rfl

/-- C8: on a modification event whose re-parse fails (the parser yields
the unparseable result `([], [], "")`), `reanalyze_file` performs no
mutation at all: the shared store is returned exactly as it was. -/
theorem reanalyze_unparseable_noop (path : String) (fd : PyFileData)
    (s : Store) (h : fd.parsed = none) : reanalyze_file path fd s = s := by
  simp [reanalyze_file, parse_python_file, h]

/-- Witness for C8 at a concrete input. -/
theorem reanalyze_unparseable_noop_witness :
    reanalyze_file "a.py" sampleBadFile initial_directory_data
      = initial_directory_data :=
  reanalyze_unparseable_noop "a.py" sampleBadFile initial_directory_data rfl

/-- C3 counterexample: called before the first build has populated the
store, the snapshot returns the JSON round trip of `{}` — the empty dict,
which has no `"nodes"`/`"edges"` keys at all — not the dict
`{"nodes": [], "edges": []}` with empty sequences that the claim
describes. -/
theorem snapshot_initial_is_empty_dict_not_graph :
    get_directory_data_snapshot initial_directory_data
      ≠ ({ nodes := some [], edges := some [] } : Store) := by
  decide

/-- C3 (amended): `get_directory_data_snapshot` is total and callable in
any state; before the first build it returns the store's value unchanged —
the empty dict `{}`, carrying no `"nodes"` or `"edges"` entry — which
denotes a graph with no nodes and no edges (reading either key with an
empty default yields the empty sequence). -/
theorem snapshot_total_and_initially_empty :
    (∀ s : Store, get_directory_data_snapshot s = s)
    ∧ get_directory_data_snapshot initial_directory_data
        = ({ nodes := none, edges := none } : Store)
    ∧ (get_directory_data_snapshot initial_directory_data).nodes.getD [] = []
    ∧ (get_directory_data_snapshot initial_directory_data).edges.getD [] = [] :=
  ⟨fun _ => rfl, rfl, rfl, rfl⟩

/-- The `returns` list of a function node is exactly the breadth-first
filter-map of `returnEntry` over the function's subtree. -/
theorem collectReturns_eq (n : PyNode) :
    collectReturns n = n.walk.filterMap returnEntry := by
  unfold collectReturns
  rw [foldl_opt_append]
  simp

/-- C2 counterexample: a bare `return` is recorded as the string
`"None"`, not as the `"<none>"` placeholder the claim states. -/
theorem bare_return_recorded_as_None :
    (parse_python_file "a.py" sampleBareReturnFile).1.map PyFunc.returns
        = [["None"]]
    ∧ "None" ≠ "<none>" :=
  ⟨rfl, by decide⟩

/-- C2 (amended): for every parseable file, each function record carries
one `returns` entry per `ast.Return` statement in the order the
breadth-first tree walk encounters them (source order within one nesting
level), each entry being the return statement's stripped source text; a
bare `return` is recorded as the placeholder string `"None"`. -/
theorem parse_returns_per_statement (path : String) (fd : PyFileData)
    (body : List PyNode) (h : fd.parsed = some body) :
    (∀ f ∈ (parse_python_file path fd).1, ∃ nm ln sg ch,
        (PyNode.funcDef nm ln sg ch) ∈ walkAux body
        ∧ f.name = nm
        ∧ f.returns = (PyNode.funcDef nm ln sg ch).walk.filterMap returnEntry)
    ∧ (∀ sg ch, returnEntry (PyNode.ret false sg ch) = some "None")
    ∧ (∀ (s : String) ch, s ≠ "" →
        returnEntry (PyNode.ret true (some s) ch) = some (pyStrip s)) := by
  refine ⟨?_, fun sg ch => rfl, fun s ch hs => by simp [returnEntry, hs]⟩
  intro f hf
  simp only [parse_python_file, h] at hf
  rcases List.mem_filterMap.mp hf with ⟨n, hn, hmk⟩
  cases n with
  | funcDef nm ln sg ch =>
      have hf : f = PyFunc.mk nm sg (collectReturns (PyNode.funcDef nm ln sg ch)) (basename path) := (Option.some.inj hmk).symm
      subst hf
      exact ⟨nm, ln, sg, ch, hn, rfl, collectReturns_eq _⟩
  | classDef nm ln sg ch => simp at hmk
  | ret v sg ch => simp at hmk
  | call cn ln ch => simp at hmk
  | other ch => simp at hmk

/-- Witness for C2's amended claim at a concrete input. -/
theorem parse_returns_per_statement_witness :
    returnEntry (PyNode.ret false none PyNodes.nil) = some "None" :=
  (parse_returns_per_statement "a.py" sampleBareReturnFile _ rfl).2.1
    none PyNodes.nil

/-- C6: a file whose bytes fail UTF-8 decoding or whose content fails
syntax parsing yields the explicit unparseable result `([], [], "")`, and
contributes zero nodes and zero edges to a full build: the graph equals
the one computed with that file removed from the analyzed list, so every
other file is still analyzed. -/
theorem unparseable_file_skipped (path : String) (fd : PyFileData)
    (h : fd.parsed = none) :
    parse_python_file path fd = ([], [], "")
    ∧ (∀ (dir rel : String) (t : DirTree) (fs₁ fs₂ : List (String × PyFileData)),
        capFiles (walkFiles "" t) = fs₁ ++ (rel, fd) :: fs₂ →
        analyze_directory dir (some t) = analyzeFiles dir (fs₁ ++ fs₂)) := by
  constructor
  · simp [parse_python_file, h]
  · intro dir rel t fs₁ fs₂ hcap
    show analyzeFiles dir (capFiles (walkFiles "" t)) = _
    rw [hcap]
    exact analyzeFiles_drop dir rel fd (Or.inr h) (Or.inl h) fs₁ fs₂

/-- Witness for C6: in a directory holding a parseable `a.py` and an
unparseable `b.py`, the build equals the build of `a.py` alone. -/
theorem unparseable_file_skipped_witness :
    parse_python_file "b.py" sampleBadFile = ([], [], "")
    ∧ analyze_directory "d" (some sampleMixedTree)
        = analyzeFiles "d" [("a.py", sampleGoodFile)] :=
  ⟨(unparseable_file_skipped "b.py" sampleBadFile rfl).1,
   (unparseable_file_skipped "b.py" sampleBadFile rfl).2 "d" "b.py"
     sampleMixedTree [("a.py", sampleGoodFile)] [] rfl⟩

/-- C10: a zero-byte file parses successfully (to an empty module) yet is
treated exactly like an unparseable file at the public interface — the
empty-content check gates both paths: `parse_python_file` returns content
`""`, a modification event never merges (the store is returned untouched),
and a full build's graph equals the one computed without the file. -/
theorem empty_file_gates_both_paths (path : String) (fd : PyFileData)
    (h1 : fd.content = "") (h2 : fd.parsed = some []) :
    parse_python_file path fd = ([], [], "")
    ∧ (∀ s, reanalyze_file path fd s = s)
    ∧ (∀ (dir rel : String) (t : DirTree) (fs₁ fs₂ : List (String × PyFileData)),
        capFiles (walkFiles "" t) = fs₁ ++ (rel, fd) :: fs₂ →
        analyze_directory dir (some t) = analyzeFiles dir (fs₁ ++ fs₂)) := by
  refine ⟨?_, ?_, ?_⟩
  · simp [parse_python_file, h2, h1, walkAux, countN, walkAuxF]
  · intro s
    simp [reanalyze_file, parse_python_file, h2, h1]
  · intro dir rel t fs₁ fs₂ hcap
    show analyzeFiles dir (capFiles (walkFiles "" t)) = _
    rw [hcap]
    exact analyzeFiles_drop dir rel fd (Or.inl h1) (Or.inr h2) fs₁ fs₂

/-- Witness for C10 at a concrete zero-byte file. -/
theorem empty_file_gates_both_paths_witness :
    parse_python_file "e.py" sampleEmptyFile = ([], [], "")
    ∧ reanalyze_file "e.py" sampleEmptyFile
        (set_directory_data { nodes := [], edges := [] })
      = set_directory_data { nodes := [], edges := [] } :=
  ⟨(empty_file_gates_both_paths "e.py" sampleEmptyFile rfl rfl).1,
   (empty_file_gates_both_paths "e.py" sampleEmptyFile rfl rfl).2.1 _⟩

end PCV

namespace PCV

/-- A file defining `f` and `g` (used to exercise the merge). -/
def sampleTwoFuncFile : PyFileData :=
  { parsed := some
      [PyNode.funcDef "f" 1 (some "def f():\n    return 1")
         (PyNodes.cons (PyNode.ret true (some "return 1") PyNodes.nil)
            PyNodes.nil),
       PyNode.funcDef "g" 4 (some "def g():\n    return 2")
         (PyNodes.cons (PyNode.ret true (some "return 2") PyNodes.nil)
            PyNodes.nil)],
    content := "def f():\n    return 1\n\ndef g():\n    return 2\n" }

/-- A root whose only file is `sub/a.py` (nested one level down). -/
def sampleNestedTree : DirTree :=
  DirTree.mk []
    (DirEntries.cons "sub" (DirTree.mk [("a.py", sampleTwoFuncFile)] DirEntries.nil)
       DirEntries.nil)

/-- The function node for `g` as the full build of a root-level `a.py`
produces it. -/
def sampleGNode : GraphNode :=
  { id := "a.py::g", name := "g", type := "function",
    code := some "def g():\n    return 2", returns := some ["return 2"],
    called_by := some [], file := some "a.py", file_path := "d/a.py" }

/-- C1 counterexample: after a full build of the nested file `sub/a.py`
(defining `f` and `g`) and a re-merge of that same file with only `f`
present, the node `sub/a.py::g` — whose `file` attribute equals the file's
root-relative name, so the claim requires its removal — is still in the
graph: `reanalyze_file` keys removal (and insertion) by the basename
`a.py`, not by the root-relative name `sub/a.py`. -/
theorem mergeFile_ignores_relative_name_nested :
    ((reanalyze_file "d/sub/a.py" sampleGoodFile
        (set_directory_data
          (analyze_directory "d" (some sampleNestedTree)))).nodes.getD
      []).any (fun n => n.file == some "sub/a.py" && n.id == "sub/a.py::g")
      = true := by
  rfl

/-- C1 (amended): for every store with populated keys and every modified
file whose re-parse yields nonempty content, the incremental merge removes
exactly those existing nodes whose id equals the file's **basename** or
whose `file` attribute equals that basename, and exactly those edges whose
source is the basename, then appends the freshly parsed file node, its
member function/class nodes and their containment edges, all keyed by the
basename; every fresh member node's `file` attribute is the basename.  For
a file directly in the analysis root the basename coincides with the
root-relative name and the original claim's `a.py` scenario holds. -/
theorem mergeFile_replaces_by_basename (path : String) (fd : PyFileData)
    (ns : List GraphNode) (es : List GraphEdge)
    (h : (parse_python_file path fd).2.2 ≠ "") :
    (∀ n, n ∈ ((reanalyze_file path fd
          { nodes := some ns, edges := some es }).nodes.getD [])
      ↔ ((n ∈ ns ∧ ¬ (n.file = some (basename path) ∨ n.id = basename path))
         ∨ n = { id := basename path, name := basename path, type := "file",
                 code := some (parse_python_file path fd).2.2,
                 file_path := path }
         ∨ n ∈ (freshFuncParts (basename path) path
                  (parse_python_file path fd).1).map Prod.fst
         ∨ n ∈ (freshClassParts (basename path) path
                  (parse_python_file path fd).2.1).map Prod.fst))
    ∧ (∀ e, e ∈ ((reanalyze_file path fd
          { nodes := some ns, edges := some es }).edges.getD [])
      ↔ ((e ∈ es ∧ e.source ≠ basename path)
         ∨ e ∈ (freshFuncParts (basename path) path
                  (parse_python_file path fd).1).map Prod.snd
         ∨ e ∈ (freshClassParts (basename path) path
                  (parse_python_file path fd).2.1).map Prod.snd))
    ∧ (∀ m ∈ (freshFuncParts (basename path) path
            (parse_python_file path fd).1).map Prod.fst
          ++ (freshClassParts (basename path) path
            (parse_python_file path fd).2.1).map Prod.fst,
        m.file = some (basename path)) := by
  refine ⟨?_, ?_, ?_⟩
  · intro n
    simp only [reanalyze_file, if_neg h, Option.getD_some, List.mem_append,
      List.mem_cons, List.mem_filter, decide_eq_true_eq]
  · intro e
    simp only [reanalyze_file, if_neg h, Option.getD_some, List.mem_append,
      List.mem_filter, decide_eq_true_eq]
  · intro m hm
    simp only [freshFuncParts, freshClassParts, List.map_map, List.mem_append,
      List.mem_map, Function.comp] at hm
    rcases hm with ⟨f, _, rfl⟩ | ⟨c, _, rfl⟩ <;> rfl

/-- Witness for C1's amended claim: merging a root-level `a.py` that now
defines only `f` into a store holding the stale `a.py::g` node removes
that node. -/
theorem mergeFile_replaces_by_basename_witness :
    sampleGNode ∉ ((reanalyze_file "d/a.py" sampleGoodFile
        { nodes := some [sampleGNode], edges := some [] }).nodes.getD []) := by
  intro hmem
  have hd := ((mergeFile_replaces_by_basename "d/a.py" sampleGoodFile
      [sampleGNode] [] (by decide)).1 sampleGNode).mp hmem
  revert hd
  decide

end PCV

namespace PCV

/-! ## Build-pass characterization lemmas -/

theorem buildGraph_fold_aux (dir : String) (af : List (String × FuncRec)) :
    ∀ (files : List (String × PyFileData)) (g : Graph),
      files.foldl
        (fun g rf =>
          let c := buildFile dir af rf.1 rf.2
          { nodes := g.nodes ++ c.1, edges := g.edges ++ c.2 }) g
        = { nodes := g.nodes
              ++ (files.map (fun rf => (buildFile dir af rf.1 rf.2).1)).flatten,
            edges := g.edges
              ++ (files.map (fun rf => (buildFile dir af rf.1 rf.2).2)).flatten } := by
  intro files
  induction files with
  | nil => intro g; simp
  | cons rf t ih =>
      intro g
      rw [List.foldl_cons, ih]
      simp

/-- The build pass concatenates each file's node/edge chunk in file
order. -/
theorem buildGraph_eq (dir : String) (af : List (String × FuncRec))
    (files : List (String × PyFileData)) :
    buildGraph dir af files
      = { nodes := (files.map (fun rf => (buildFile dir af rf.1 rf.2).1)).flatten,
          edges := (files.map (fun rf => (buildFile dir af rf.1 rf.2).2)).flatten } := by
  unfold buildGraph
  rw [buildGraph_fold_aux]
  simp

theorem buildGraph_nodes_mem (dir : String) (af : List (String × FuncRec))
    (files : List (String × PyFileData)) (n : GraphNode) :
    n ∈ (buildGraph dir af files).nodes
      ↔ ∃ rf ∈ files, n ∈ (buildFile dir af rf.1 rf.2).1 := by
  rw [buildGraph_eq]
  simp only [List.mem_flatten, List.mem_map]
  constructor
  · rintro ⟨l, ⟨rf, hrf, rfl⟩, hn⟩
    exact ⟨rf, hrf, hn⟩
  · rintro ⟨rf, hrf, hn⟩
    exact ⟨_, ⟨rf, hrf, rfl⟩, hn⟩

theorem buildGraph_edges_mem (dir : String) (af : List (String × FuncRec))
    (files : List (String × PyFileData)) (e : GraphEdge) :
    e ∈ (buildGraph dir af files).edges
      ↔ ∃ rf ∈ files, e ∈ (buildFile dir af rf.1 rf.2).2 := by
  rw [buildGraph_eq]
  simp only [List.mem_flatten, List.mem_map]
  constructor
  · rintro ⟨l, ⟨rf, hrf, rfl⟩, he⟩
    exact ⟨rf, hrf, he⟩
  · rintro ⟨rf, hrf, he⟩
    exact ⟨_, ⟨rf, hrf, rfl⟩, he⟩

theorem filter_file_map_nil {α : Type} (f : α → GraphNode)
    (hf : ∀ x, (((f x).type == "file") = false)) :
    ∀ l : List α, (l.map f).filter (fun n => n.type == "file") = [] := by
  intro l
  induction l with
  | nil => rfl
  | cons x t ih => simp [List.filter_cons, hf, ih]

/-- The file-typed nodes a single file contributes: none if it re-parses
empty, else exactly its file node. -/
theorem buildFile_file_ids (dir : String) (af : List (String × FuncRec))
    (rel : String) (fd : PyFileData) :
    (((buildFile dir af rel fd).1.filter
        (fun n => n.type == "file")).map GraphNode.id)
      = if (parse_python_file (dir ++ "/" ++ rel) fd).2.2 = "" then []
        else [rel] := by
  unfold buildFile
  by_cases hc : (parse_python_file (dir ++ "/" ++ rel) fd).2.2 = ""
  · simp [hc]
  · simp only [if_neg hc, List.filter_cons, List.filter_append]
    rw [filter_file_map_nil (funcNodeOf dir af rel) (fun x => rfl),
      filter_file_map_nil (classNodeOf dir rel) (fun x => rfl)]
    simp [fileNodeOf]

theorem buildGraph_file_ids (dir : String) (af : List (String × FuncRec)) :
    ∀ (files : List (String × PyFileData)),
      (∀ p ∈ files, (parse_python_file (dir ++ "/" ++ p.1) p.2).2.2 ≠ "") →
      (((buildGraph dir af files).nodes.filter
          (fun n => n.type == "file")).map GraphNode.id)
        = files.map Prod.fst := by
  intro files
  induction files with
  | nil => intro _; rfl
  | cons rf t ih =>
      intro hall
      rw [buildGraph_eq]
      simp only [List.map_cons, List.flatten_cons, List.filter_append,
        List.map_append]
      have h1 := buildFile_file_ids dir af rf.1 rf.2
      rw [if_neg (hall rf (List.mem_cons_self _ _))] at h1
      rw [h1]
      have h2 := ih (fun p hp => hall p (List.mem_cons_of_mem _ hp))
      rw [buildGraph_eq] at h2
      simp only at h2
      rw [h2]
      rfl

/-- C4: the discoverer caps the analyzed list at 50 files: when the walk
finds more than 50 subject-language files (all parseable here, so each
yields a file node), the built graph holds file nodes for exactly the
first 50 in walk order; with at most 50 files the tree is analyzed in
full.  (The warning is a log line outside the embedding.) -/
theorem analyze_cap_fifty (dir : String) (t : DirTree)
    (hall : ∀ p ∈ walkFiles "" t,
        (parse_python_file (dir ++ "/" ++ p.1) p.2).2.2 ≠ "") :
    (50 < (walkFiles "" t).length →
      (((analyze_directory dir (some t)).nodes.filter
          (fun n => n.type == "file")).map GraphNode.id)
        = ((walkFiles "" t).take 50).map Prod.fst)
    ∧ ((walkFiles "" t).length ≤ 50 →
      (((analyze_directory dir (some t)).nodes.filter
          (fun n => n.type == "file")).map GraphNode.id)
        = (walkFiles "" t).map Prod.fst) := by
  constructor
  · intro hl
    show (((analyzeFiles dir (capFiles (walkFiles "" t))).nodes.filter
        (fun n => n.type == "file")).map GraphNode.id) = _
    rw [show capFiles (walkFiles "" t) = (walkFiles "" t).take 50 from by
      unfold capFiles
      rw [if_pos hl]]
    exact buildGraph_file_ids dir _ _
      (fun p hp => hall p (List.take_subset _ _ hp))
  · intro hl
    show (((analyzeFiles dir (capFiles (walkFiles "" t))).nodes.filter
        (fun n => n.type == "file")).map GraphNode.id) = _
    rw [show capFiles (walkFiles "" t) = walkFiles "" t from by
      unfold capFiles
      rw [if_neg (by omega)]]
    exact buildGraph_file_ids dir _ _ hall

/-- A trivially parseable one-statement file. -/
def sampleTrivialFile : PyFileData :=
  { parsed := some [PyNode.other PyNodes.nil], content := "pass\n" }

/-- A flat directory with 75 subject-language files. -/
def sampleManyTree : DirTree :=
  DirTree.mk
    ((List.range 75).map (fun i => ("f" ++ toString i ++ ".py", sampleTrivialFile)))
    DirEntries.nil

/-- Witness for C4: 75 files, file nodes for exactly the first 50. -/
theorem analyze_cap_fifty_witness :
    50 < (walkFiles "" sampleManyTree).length
    ∧ (((analyze_directory "d" (some sampleManyTree)).nodes.filter
        (fun n => n.type == "file")).map GraphNode.id)
      = ((walkFiles "" sampleManyTree).take 50).map Prod.fst :=
  ⟨by decide, (analyze_cap_fifty "d" sampleManyTree (by decide)).1 (by decide)⟩

end PCV

namespace PCV

/-- Shape of any node a file contributes: the file node itself, or a
member node whose id is `rel ++ "::" ++ name` and whose type is
`"function"` or `"class"`. -/
theorem buildFile_nodes_mem (dir : String) (af : List (String × FuncRec))
    (rel : String) (fd : PyFileData) (n : GraphNode)
    (hn : n ∈ (buildFile dir af rel fd).1) :
    (parse_python_file (dir ++ "/" ++ rel) fd).2.2 ≠ ""
    ∧ (n = fileNodeOf dir rel fd
       ∨ (n.id = rel ++ "::" ++ n.name ∧ n.type ≠ "file"
          ∧ (n.type = "function" ∨ n.type = "class"))) := by
  unfold buildFile at hn
  by_cases hc : (parse_python_file (dir ++ "/" ++ rel) fd).2.2 = ""
  · simp only [if_pos hc] at hn
    simp at hn
  · simp only [if_neg hc] at hn
    refine ⟨hc, ?_⟩
    rcases List.mem_cons.mp hn with rfl | hn'
    · exact Or.inl rfl
    · rcases List.mem_append.mp hn' with hf | hcl
      · rcases List.mem_map.mp hf with ⟨f, _, rfl⟩
        exact Or.inr ⟨rfl, (by decide : ("function" : String) ≠ "file"),
          Or.inl rfl⟩
      · rcases List.mem_map.mp hcl with ⟨c, _, rfl⟩
        exact Or.inr ⟨rfl, (by decide : ("class" : String) ≠ "file"),
          Or.inr rfl⟩

/-- Any edge a file contributes has that file as source and an existing
member node of the same chunk as target. -/
theorem buildFile_edges_mem (dir : String) (af : List (String × FuncRec))
    (rel : String) (fd : PyFileData) (e : GraphEdge)
    (he : e ∈ (buildFile dir af rel fd).2) :
    (parse_python_file (dir ++ "/" ++ rel) fd).2.2 ≠ ""
    ∧ e.source = rel
    ∧ ∃ m ∈ (buildFile dir af rel fd).1, m.id = e.target := by
  unfold buildFile at he ⊢
  by_cases hc : (parse_python_file (dir ++ "/" ++ rel) fd).2.2 = ""
  · simp only [if_pos hc] at he
    simp at he
  · simp only [if_neg hc] at he ⊢
    refine ⟨hc, ?_, ?_⟩
    · rcases List.mem_append.mp he with hf | hcl
      · rcases List.mem_map.mp hf with ⟨f, _, rfl⟩; rfl
      · rcases List.mem_map.mp hcl with ⟨c, _, rfl⟩; rfl
    · rcases List.mem_append.mp he with hf | hcl
      · rcases List.mem_map.mp hf with ⟨f, hfm, rfl⟩
        exact ⟨funcNodeOf dir af rel f,
          List.mem_cons_of_mem _
            (List.mem_append.mpr (Or.inl (List.mem_map_of_mem _ hfm))), rfl⟩
      · rcases List.mem_map.mp hcl with ⟨c, hcm, rfl⟩
        exact ⟨classNodeOf dir rel c,
          List.mem_cons_of_mem _
            (List.mem_append.mpr (Or.inr (List.mem_map_of_mem _ hcm))), rfl⟩

/-- A nonempty chunk always contains its file node. -/
theorem buildFile_file_node_mem (dir : String) (af : List (String × FuncRec))
    (rel : String) (fd : PyFileData)
    (hc : (parse_python_file (dir ++ "/" ++ rel) fd).2.2 ≠ "") :
    fileNodeOf dir rel fd ∈ (buildFile dir af rel fd).1 := by
  unfold buildFile
  simp only [if_neg hc]
  exact List.mem_cons_self _ _

/-- C9: in every graph `analyze_directory` builds (over a root whose
discovered relative file names are distinct, as a real file system
guarantees), every function or class node's id decomposes as
`fileId ++ "::" ++ name` for exactly one file node of the same graph, and
every edge's source and target are ids of nodes present in the graph. -/
theorem graph_containment_and_edge_invariants (dir : String) (t : DirTree)
    (hnd : ((capFiles (walkFiles "" t)).map Prod.fst).Nodup) :
    (∀ n ∈ (analyze_directory dir (some t)).nodes,
        n.type = "function" ∨ n.type = "class" →
        ∃! f, f ∈ (analyze_directory dir (some t)).nodes ∧ f.type = "file"
          ∧ n.id = f.id ++ "::" ++ n.name)
    ∧ (∀ e ∈ (analyze_directory dir (some t)).edges,
        (∃ a ∈ (analyze_directory dir (some t)).nodes, a.id = e.source)
        ∧ (∃ b ∈ (analyze_directory dir (some t)).nodes, b.id = e.target)) := by
  have hmain : ∀ (files : List (String × PyFileData)) (af : List (String × FuncRec)),
      (files.map Prod.fst).Nodup →
      (∀ n ∈ (buildGraph dir af files).nodes,
        n.type = "function" ∨ n.type = "class" →
        ∃! f, f ∈ (buildGraph dir af files).nodes ∧ f.type = "file"
          ∧ n.id = f.id ++ "::" ++ n.name)
      ∧ (∀ e ∈ (buildGraph dir af files).edges,
        (∃ a ∈ (buildGraph dir af files).nodes, a.id = e.source)
        ∧ (∃ b ∈ (buildGraph dir af files).nodes, b.id = e.target)) := by
    intro files af hnodup
    constructor
    · intro n hn htype
      rcases (buildGraph_nodes_mem dir af files n).mp hn with ⟨rf, hrf, hchunk⟩
      rcases buildFile_nodes_mem dir af rf.1 rf.2 n hchunk with ⟨hc, hshape⟩
      rcases hshape with rfl | ⟨hid, hnotfile, _⟩
      · rcases htype with h | h <;> simp [fileNodeOf] at h
      · refine ⟨fileNodeOf dir rf.1 rf.2,
          ⟨(buildGraph_nodes_mem dir af files _).mpr
              ⟨rf, hrf, buildFile_file_node_mem dir af rf.1 rf.2 hc⟩,
            rfl, hid⟩, ?_⟩
        rintro f' ⟨hf'mem, hf'type, hf'id⟩
        rcases (buildGraph_nodes_mem dir af files f').mp hf'mem with
          ⟨rf', hrf', hchunk'⟩
        rcases buildFile_nodes_mem dir af rf'.1 rf'.2 f' hchunk' with
          ⟨hc', hshape'⟩
        rcases hshape' with rfl | ⟨_, hnf', _⟩
        · have hthis : (rf'.1 ++ "::") ++ n.name = (rf.1 ++ "::") ++ n.name :=
            hf'id.symm.trans hid
          have hkey : rf'.1 = rf.1 :=
            strAppend_cancel_right _ _ _ (strAppend_cancel_right _ _ _ hthis)
          have hmem1 : (rf.1, rf'.2) ∈ files := by
            rw [← hkey]
            exact hrf'
          have hmem2 : (rf.1, rf.2) ∈ files := hrf
          have hval : rf'.2 = rf.2 :=
            nodupKeys_val_eq files hnodup rf.1 rf'.2 rf.2 hmem1 hmem2
          rw [hkey, hval]
        · exact absurd hf'type hnf'
    · intro e he
      rcases (buildGraph_edges_mem dir af files e).mp he with ⟨rf, hrf, hchunk⟩
      rcases buildFile_edges_mem dir af rf.1 rf.2 e hchunk with
        ⟨hc, hsrc, m, hm, hid⟩
      constructor
      · exact ⟨fileNodeOf dir rf.1 rf.2,
          (buildGraph_nodes_mem dir af files _).mpr
            ⟨rf, hrf, buildFile_file_node_mem dir af rf.1 rf.2 hc⟩,
          hsrc.symm⟩
      · exact ⟨m, (buildGraph_nodes_mem dir af files m).mpr ⟨rf, hrf, hm⟩, hid⟩
  exact hmain (capFiles (walkFiles "" t))
    (passTwo (capFiles (walkFiles "" t)) (passOne dir (capFiles (walkFiles "" t))))
    hnd

/-- The `sub/a.py::g` function node as the full build of
`sampleNestedTree` produces it. -/
def sampleNestedGNode : GraphNode :=
  { id := "sub/a.py::g", name := "g", type := "function",
    code := some "def g():\n    return 2", returns := some ["return 2"],
    called_by := some [], file := some "sub/a.py", file_path := "d/sub/a.py" }

/-- Witness for C9 at a concrete graph and function node. -/
theorem graph_containment_and_edge_invariants_witness :
    ∃! f, f ∈ (analyze_directory "d" (some sampleNestedTree)).nodes
      ∧ f.type = "file"
      ∧ sampleNestedGNode.id = f.id ++ "::" ++ sampleNestedGNode.name :=
  (graph_containment_and_edge_invariants "d" sampleNestedTree (by decide)).1
    sampleNestedGNode (by decide) (Or.inl rfl)

end PCV

namespace PCV

/-! ## Call-resolver lemmas -/

/-- Invariant of the enclosing-function fold: starting from any
accumulator, the fold either returns it unchanged (no qualifying entry
beats its best line) or returns the qualifying entry with the maximal
start line. -/
theorem findEnclosing_fold (c : Nat) :
    ∀ (flm : List (Nat × String)) (acc : Option String × Nat),
      (flm.foldl (feStep c) acc = acc ∧ ∀ p ∈ flm, p.1 ≤ c → p.1 ≤ acc.2)
      ∨ (∃ l nm, (l, nm) ∈ flm ∧ l ≤ c ∧ acc.2 < l
          ∧ flm.foldl (feStep c) acc = (some nm, l)
          ∧ ∀ p ∈ flm, p.1 ≤ c → p.1 ≤ l) := by
  intro flm
  induction flm with
  | nil =>
      intro acc
      left
      exact ⟨rfl, by simp⟩
  | cons p t ih =>
      intro acc
      rw [List.foldl_cons]
      by_cases hp : p.1 ≤ c ∧ acc.2 < p.1
      · have hstep : feStep c acc p = (some p.2, p.1) := by
          simp [feStep, hp]
        rw [hstep]
        rcases ih (some p.2, p.1) with ⟨heq, hbnd⟩ | ⟨l, nm, hmem, hlc, hlt, heq, hbnd⟩
        · right
          refine ⟨p.1, p.2, List.mem_cons_self _ _, hp.1, hp.2, ?_, ?_⟩
          · rw [heq]
          · intro q hq hqc
            rcases List.mem_cons.mp hq with rfl | hq'
            · exact le_refl _
            · exact hbnd q hq' hqc
        · right
          refine ⟨l, nm, List.mem_cons_of_mem _ hmem, hlc,
            lt_trans hp.2 hlt, heq, ?_⟩
          intro q hq hqc
          rcases List.mem_cons.mp hq with rfl | hq'
          · exact le_of_lt hlt
          · exact hbnd q hq' hqc
      · have hstep : feStep c acc p = acc := by
          simp only [feStep, if_neg hp]
        rw [hstep]
        push_neg at hp
        rcases ih acc with ⟨heq, hbnd⟩ | ⟨l, nm, hmem, hlc, hlt, heq, hbnd⟩
        · left
          refine ⟨heq, ?_⟩
          intro q hq hqc
          rcases List.mem_cons.mp hq with rfl | hq'
          · exact hp hqc
          · exact hbnd q hq' hqc
        · right
          refine ⟨l, nm, List.mem_cons_of_mem _ hmem, hlc, hlt, heq, ?_⟩
          intro q hq hqc
          rcases List.mem_cons.mp hq with rfl | hq'
          · exact le_trans (hp hqc) (le_of_lt hlt)
          · exact hbnd q hq' hqc

/-- Specification of the enclosing-function heuristic: when the line map
has distinct keys (one `ast.FunctionDef` per line) and positive line
numbers (as Python guarantees), the heuristic returns exactly the function
whose start line is the greatest one `≤` the call's line. -/
theorem findEnclosing_spec (flm : List (Nat × String)) (c : Nat)
    (hkeys : (flm.map Prod.fst).Nodup) (hpos : ∀ p ∈ flm, 0 < p.1)
    (nm : String) :
    findEnclosing flm c = some nm
      ↔ ∃ l, (l, nm) ∈ flm ∧ l ≤ c ∧ ∀ p ∈ flm, p.1 ≤ c → p.1 ≤ l := by
  unfold findEnclosing
  constructor
  · intro h
    rcases findEnclosing_fold c flm (none, 0) with ⟨heq, _⟩ |
      ⟨l, nm', hmem, hlc, _, heq, hbnd⟩
    · rw [heq] at h
      cases h
    · rw [heq] at h
      rcases Option.some.inj h with rfl
      exact ⟨l, hmem, hlc, hbnd⟩
  · rintro ⟨l, hmem, hlc, hbnd⟩
    rcases findEnclosing_fold c flm (none, 0) with ⟨_, hb2⟩ |
      ⟨l', nm', hmem', hlc', _, heq, hbnd'⟩
    · exfalso
      have h1 := hb2 (l, nm) hmem hlc
      have h2 := hpos (l, nm) hmem
      simp at h1
      omega
    · rw [heq]
      have hll : l = l' := le_antisymm (hbnd' (l, nm) hmem hlc)
        (hbnd (l', nm') hmem' hlc')
      subst hll
      rw [nodupKeys_val_eq flm hkeys l nm' nm hmem' hmem]

/-- Processing a call: each record whose name matches the called name, in
a dict whose keys contain the enclosing function's id, is updated with
that caller appended (deduplicated); the update appears at the record's
position. -/
theorem processCall_adds (rel : String) (flm' : List (Nat × String))
    (cn : String) (cl : Nat) (af : List (String × FuncRec))
    (fid : String) (d : FuncRec)
    (hmem : (fid, d) ∈ af) (hname : d.name = cn) (cf : String)
    (henc : findEnclosing flm' cl = some cf)
    (hcaller : (rel ++ "::" ++ cf) ∈ af.map Prod.fst) :
    (fid, updateCalledBy (rel ++ "::" ++ cf) d)
      ∈ processCall rel flm' cn cl af := by
  unfold processCall
  refine List.mem_map.mpr ⟨(fid, d), hmem, ?_⟩
  simp [hname, henc, hcaller]

/-- Behavior of the deduplicating append on `called_by`: the caller is
present afterwards, the prior sequence is a prefix (first-seen order is
preserved), distinctness is preserved, and an already-listed caller
changes nothing. -/
theorem updateCalledBy_spec (caller : String) (d : FuncRec) :
    caller ∈ (updateCalledBy caller d).called_by
    ∧ (∃ tl, (updateCalledBy caller d).called_by = d.called_by ++ tl)
    ∧ (d.called_by.Nodup → (updateCalledBy caller d).called_by.Nodup)
    ∧ (caller ∈ d.called_by → updateCalledBy caller d = d) := by
  unfold updateCalledBy
  by_cases hc : caller ∈ d.called_by
  · rw [if_pos hc]
    exact ⟨hc, ⟨[], by simp⟩, fun h => h, fun _ => rfl⟩
  · rw [if_neg hc]
    refine ⟨?_, ⟨[caller], rfl⟩, ?_, fun h => absurd h hc⟩
    · simp
    · intro hnd
      simp [List.nodup_append, hnd, hc]

end PCV

namespace PCV

/-- After the first pass every record's `called_by` is the freshly reset
empty list. -/
theorem passOneFile_empty_called_by (dir : String)
    (af : List (String × FuncRec)) (rel : String) (fd : PyFileData)
    (hinv : ∀ e ∈ af, e.2.called_by = []) :
    ∀ e ∈ passOneFile dir af rel fd, e.2.called_by = [] := by
  unfold passOneFile
  by_cases hc : (parse_python_file (dir ++ "/" ++ rel) fd).2.2 = ""
  · rw [if_pos hc]
    exact hinv
  · rw [if_neg hc]
    refine foldl_invariant (fun (af : List (String × FuncRec)) => ∀ e ∈ af, e.2.called_by = []) _ ?_ _ af hinv
    intro b a hb e he
    rcases mem_dictSet _ _ b e he with h | h
    · exact hb e h
    · rw [h]

theorem passOne_empty_called_by (dir : String)
    (files : List (String × PyFileData)) :
    ∀ e ∈ passOne dir files, e.2.called_by = [] := by
  unfold passOne
  refine foldl_invariant (fun (af : List (String × FuncRec)) => ∀ e ∈ af, e.2.called_by = []) _ ?_ files []
    (fun e he => absurd he (List.not_mem_nil e))
  intro b a hb
  exact passOneFile_empty_called_by dir b a.1 a.2 hb

/-- Processing one call preserves distinctness of every `called_by`. -/
theorem processCall_nodup (rel : String) (flm' : List (Nat × String))
    (cn : String) (cl : Nat) (af : List (String × FuncRec))
    (hinv : ∀ e ∈ af, e.2.called_by.Nodup) :
    ∀ e ∈ processCall rel flm' cn cl af, e.2.called_by.Nodup := by
  intro e he
  unfold processCall at he
  rcases List.mem_map.mp he with ⟨e₀, he₀, rfl⟩
  by_cases h1 : e₀.2.name = cn
  · simp only [if_pos h1]
    cases henc : findEnclosing flm' cl with
    | none => exact hinv e₀ he₀
    | some cf =>
        show (if (rel ++ "::" ++ cf) ∈ af.map Prod.fst
            then (e₀.1, updateCalledBy (rel ++ "::" ++ cf) e₀.2)
            else e₀).2.called_by.Nodup
        by_cases h2 : (rel ++ "::" ++ cf) ∈ af.map Prod.fst
        · simp only [if_pos h2]
          exact (updateCalledBy_spec _ _).2.2.1 (hinv e₀ he₀)
        · simp only [if_neg h2]
          exact hinv e₀ he₀
  · simp only [if_neg h1]
    exact hinv e₀ he₀

theorem passTwoFile_nodup (af : List (String × FuncRec)) (rel : String)
    (fd : PyFileData) (hinv : ∀ e ∈ af, e.2.called_by.Nodup) :
    ∀ e ∈ passTwoFile af rel fd, e.2.called_by.Nodup := by
  unfold passTwoFile
  cases hp : fd.parsed with
  | none => exact hinv
  | some body =>
      refine foldl_invariant (fun (af : List (String × FuncRec)) => ∀ e ∈ af, e.2.called_by.Nodup) _ ?_ _ af hinv
      intro b a hb
      exact processCall_nodup rel _ a.1 a.2 b hb

theorem passTwo_nodup (files : List (String × PyFileData))
    (af : List (String × FuncRec)) (hinv : ∀ e ∈ af, e.2.called_by.Nodup) :
    ∀ e ∈ passTwo files af, e.2.called_by.Nodup := by
  unfold passTwo
  refine foldl_invariant (fun (af : List (String × FuncRec)) => ∀ e ∈ af, e.2.called_by.Nodup) _ ?_ files af hinv
  intro b a hb
  exact passTwoFile_nodup b a.1 a.2 hb

/-- Every `called_by` a built node carries comes from a resolver record
(or is the empty fallback), so it inherits the records' distinctness. -/
theorem buildFile_called_by_nodup (dir : String) (af : List (String × FuncRec))
    (rel : String) (fd : PyFileData)
    (hinv : ∀ e ∈ af, e.2.called_by.Nodup)
    (n : GraphNode) (hn : n ∈ (buildFile dir af rel fd).1) :
    ∀ cb, n.called_by = some cb → cb.Nodup := by
  unfold buildFile at hn
  by_cases hc : (parse_python_file (dir ++ "/" ++ rel) fd).2.2 = ""
  · simp only [if_pos hc] at hn
    simp at hn
  · simp only [if_neg hc] at hn
    rcases List.mem_cons.mp hn with rfl | hn'
    · intro cb hcb
      simp [fileNodeOf] at hcb
    · rcases List.mem_append.mp hn' with hf | hcl
      · rcases List.mem_map.mp hf with ⟨f, _, rfl⟩
        intro cb hcb
        simp only [funcNodeOf, Option.some.injEq] at hcb
        cases hd : dictGet (rel ++ "::" ++ f.name) af with
        | none =>
            rw [hd] at hcb
            rw [← hcb]
            exact List.nodup_nil
        | some dd =>
            rw [hd] at hcb
            rw [← hcb]
            exact hinv (rel ++ "::" ++ f.name, dd) (dictGet_mem _ af dd hd)
      · rcases List.mem_map.mp hcl with ⟨cnode, _, rfl⟩
        intro cb hcb
        simp [classNodeOf] at hcb

/-- C5: the Call Resolver's attribution and linkage.  (1) With a line map
of distinct, positive start lines, the enclosing-function heuristic picks
exactly the definition with the greatest start line `≤` the call's line.
(2) Processing a call appends the enclosing function's NodeId to the
`called_by` of every record matching the called name (when the enclosing
function is itself a known record).  (3) That append suppresses
duplicates, keeps the prior sequence as a prefix (first-seen insertion
order), preserves distinctness, and is the identity on an already-listed
caller.  (4) Consequently every `called_by` carried by any node of any
built graph is duplicate-free. -/
theorem call_resolver_spec (flm : List (Nat × String)) (c : Nat)
    (hkeys : (flm.map Prod.fst).Nodup) (hpos : ∀ p ∈ flm, 0 < p.1) :
    (∀ nm, findEnclosing flm c = some nm
      ↔ ∃ l, (l, nm) ∈ flm ∧ l ≤ c ∧ ∀ p ∈ flm, p.1 ≤ c → p.1 ≤ l)
    ∧ (∀ (rel : String) (flm' : List (Nat × String)) (cn : String) (cl : Nat)
         (af : List (String × FuncRec)) (fid : String) (d : FuncRec),
        (fid, d) ∈ af → d.name = cn →
        ∀ cf, findEnclosing flm' cl = some cf →
          (rel ++ "::" ++ cf) ∈ af.map Prod.fst →
          (fid, updateCalledBy (rel ++ "::" ++ cf) d)
            ∈ processCall rel flm' cn cl af)
    ∧ (∀ (caller : String) (d : FuncRec),
        caller ∈ (updateCalledBy caller d).called_by
        ∧ (∃ tl, (updateCalledBy caller d).called_by = d.called_by ++ tl)
        ∧ (d.called_by.Nodup → (updateCalledBy caller d).called_by.Nodup)
        ∧ (caller ∈ d.called_by → updateCalledBy caller d = d))
    ∧ (∀ (dir : String) (t : Option DirTree) (n : GraphNode)
         (cb : List String),
        n ∈ (analyze_directory dir t).nodes → n.called_by = some cb →
        cb.Nodup) := by
  refine ⟨fun nm => findEnclosing_spec flm c hkeys hpos nm,
    fun rel flm' cn cl af fid d hmem hname cf henc hcaller =>
      processCall_adds rel flm' cn cl af fid d hmem hname cf henc hcaller,
    fun caller d => updateCalledBy_spec caller d, ?_⟩
  intro dir t n cb hn hcb
  cases t with
  | none => simp [analyze_directory] at hn
  | some tree =>
      have hn' : n ∈ (buildGraph dir
          (passTwo (capFiles (walkFiles "" tree))
            (passOne dir (capFiles (walkFiles "" tree))))
          (capFiles (walkFiles "" tree))).nodes := hn
      rcases (buildGraph_nodes_mem _ _ _ n).mp hn' with ⟨rf, hrf, hchunk⟩
      have hinv : ∀ e ∈ passTwo (capFiles (walkFiles "" tree))
          (passOne dir (capFiles (walkFiles "" tree))), e.2.called_by.Nodup := by
        refine passTwo_nodup _ _ ?_
        intro e he
        rw [passOne_empty_called_by dir _ e he]
        exact List.nodup_nil
      exact buildFile_called_by_nodup _ _ _ _ hinv n hchunk cb hcb

/-- Witness for C5: among definitions at lines 1 (`f`) and 5 (`g`), a call
at line 7 is attributed to `g`, the nearest preceding definition. -/
theorem call_resolver_spec_witness :
    findEnclosing [(1, "f"), (5, "g")] 7 = some "g" :=
  ((call_resolver_spec [(1, "f"), (5, "g")] 7 (by decide) (by decide)).1 "g").mpr
    ⟨5, by decide, by decide, by decide⟩

end PCV
